import Mathlib

set_option maxHeartbeats 1000000

/-! Verification of the river_adgen orchestration pipeline (app.py and
streamlit_app.py): the fenced-block extractor, the JSON plan parser, the
two-stage flow orchestrator, usage accounting, the batch runner and the
interactive variant, shallowly embedded as executable Lean functions. -/

/-! ## Python string helpers -/

/-- Python regex class \s restricted to the ASCII range: space, tab,
newline, carriage return, vertical tab, form feed. -/
def isPyWs (c : Char) : Bool :=
  c = ' ' || c = '\t' || c = '\n' || c = '\r' || c = Char.ofNat 11 || c = Char.ofNat 12

/-- Python str.strip over a character list. -/
def pyStrip (l : List Char) : List Char :=
  ((l.dropWhile isPyWs).reverse.dropWhile isPyWs).reverse

/-! ## The extractor (app.py extract_x, lines 16-19)

The regex is r"```CODE_TYPE\s*(.*?)```" with re.DOTALL, searched with
re.search and the captured group stripped.  The model treats the language
tag as a literal string (the program only ever passes "json"). -/

/-- The fenced-code-block marker of three backticks. -/
def fenceMarker : List Char := "```".toList

/-- Opening marker of a fenced block for the given language tag, as the
regex of extract_x matches it. -/
def fenceOpen (tag : List Char) : List Char := fenceMarker ++ tag

/-- The lazy group (.*?) followed by the literal closing marker: return the
characters before the first position where the closing marker starts, or
none when no closing marker exists and the attempt fails. -/
def captureTo : List Char → Option (List Char)
  | [] => none
  | c :: cs =>
    if fenceMarker.isPrefixOf (c :: cs) then some []
    else (captureTo cs).map (fun r => c :: r)

/-- One attempt of the pattern at the current position: the opening marker,
then greedy whitespace, then the lazy group up to a closing marker. -/
def fenceMatchHere (tag s : List Char) : Option (List Char) :=
  if (fenceOpen tag).isPrefixOf s then
    captureTo ((s.drop (fenceOpen tag).length).dropWhile isPyWs)
  else none

/-- re.search: attempt the pattern at each position from the left. -/
def fenceSearch (tag : List Char) : List Char → Option (List Char)
  | [] => fenceMatchHere tag []
  | c :: cs =>
    match fenceMatchHere tag (c :: cs) with
    | some r => some r
    | none => fenceSearch tag cs

/-- app.py extract_x: the stripped content of the first fenced block for
the tag, or the whole response unchanged when the regex finds no match. -/
def extract_x (response code_type : String) : String :=
  match fenceSearch code_type.toList response.toList with
  | some r => String.mk (pyStrip r)
  | none => response

/-- Statement-side reading of one successful match attempt at offset i:
the opening marker sits at i and some closing marker follows it. -/
def MatchesAt (tag s : List Char) (i : Nat) : Prop :=
  (fenceOpen tag).isPrefixOf (s.drop i) = true ∧
  ∃ k, fenceMarker.isPrefixOf ((s.drop (i + (fenceOpen tag).length)).drop k) = true

/-- Content captured by the fenced block whose opening marker is at i. -/
def captureAt (tag s : List Char) (i : Nat) : List Char :=
  (captureTo ((s.drop (i + (fenceOpen tag).length)).dropWhile isPyWs)).getD []

/-- Whether the three-backtick marker occurs anywhere in the text. -/
def hasFence : List Char → Bool
  | [] => false
  | c :: cs => fenceMarker.isPrefixOf (c :: cs) || hasFence cs

/-! ## The JSON parser (json.loads as called in app.py line 332)

A lexer over characters followed by a recursive-descent parser over
tokens.  Numbers keep their raw lexeme (no claim compares numeric
values); a \u escape decodes its code unit directly (surrogate pairing
is not modelled; no claim exercises it). -/

/-- Whitespace the JSON grammar allows between tokens. -/
def isJsonWs (c : Char) : Bool :=
  c = ' ' || c = '\t' || c = '\n' || c = '\r'

/-- Value of one hexadecimal digit. -/
def hexVal (c : Char) : Option Nat :=
  if c.isDigit then some (c.toNat - 48)
  else if 'a' ≤ c && c ≤ 'f' then some (c.toNat - 87)
  else if 'A' ≤ c && c ≤ 'F' then some (c.toNat - 55)
  else none

/-- Characters a number lexeme may contain. -/
def isNumChar (c : Char) : Bool :=
  c.isDigit || c = '-' || c = '+' || c = '.' || c = 'e' || c = 'E'

/-- Exponent part of the json NUMBER_RE, consuming the rest of a lexeme. -/
def numExp : List Char → Bool
  | [] => true
  | c :: r =>
    if c = 'e' || c = 'E' then
      let r1 := if r.head? = some '+' || r.head? = some '-' then r.tail else r
      match r1 with
      | d :: rest => d.isDigit && (rest.dropWhile Char.isDigit).isEmpty
      | [] => false
    else false

/-- Fraction-then-exponent part of the json NUMBER_RE. -/
def numFracExp : List Char → Bool
  | [] => true
  | c :: r =>
    if c = '.' then
      match r with
      | d :: rest => d.isDigit && numExp (rest.dropWhile Char.isDigit)
      | [] => false
    else numExp (c :: r)

/-- Shape check mirroring the json module's NUMBER_RE,
-?(0|[1-9][0-9]*)(\.[0-9]+)?([eE][+-]?[0-9]+)?, against a whole lexeme. -/
def validNumber (l : List Char) : Bool :=
  let l1 := if l.head? = some '-' then l.tail else l
  match l1 with
  | c :: r =>
    if c = '0' then numFracExp r
    else if c.isDigit then numFracExp (r.dropWhile Char.isDigit)
    else false
  | [] => false

/-- Tokens of the JSON grammar. -/
inductive JTok where
  | lbrace
  | rbrace
  | lbrack
  | rbrack
  | colon
  | comma
  | str (s : List Char)
  | num (raw : List Char)
  | tru
  | fls
  | nul
deriving DecidableEq

/-- The lexer is a character-at-a-time machine; the mode says where inside
a token the scan currently stands. -/
inductive LexMode where
  | top
  | instr (acc : List Char)
  | esc (acc : List Char)
  | uni (acc : List Char) (hs : List Nat)
  | innum (run : List Char)
  | inlit (rest : List Char) (t : JTok)
deriving DecidableEq

/-- The JSON string escape table (without the \u case). -/
def escChar (c : Char) : Option Char :=
  if c = '"' then some '"'
  else if c = '\\' then some '\\'
  else if c = '/' then some '/'
  else if c = 'b' then some (Char.ofNat 8)
  else if c = 'f' then some (Char.ofNat 12)
  else if c = 'n' then some '\n'
  else if c = 'r' then some '\r'
  else if c = 't' then some '\t'
  else none

/-- The single-character punctuation tokens. -/
def punctTok (c : Char) : Option JTok :=
  if c = Char.ofNat 123 then some JTok.lbrace
  else if c = Char.ofNat 125 then some JTok.rbrace
  else if c = '[' then some JTok.lbrack
  else if c = ']' then some JTok.rbrack
  else if c = ':' then some JTok.colon
  else if c = ',' then some JTok.comma
  else none

/-- First character of one of the three literals, with the expected
remaining characters and the token. -/
def litStart (c : Char) : Option (List Char × JTok) :=
  if c = 't' then some ("rue".toList, JTok.tru)
  else if c = 'f' then some ("alse".toList, JTok.fls)
  else if c = 'n' then some ("ull".toList, JTok.nul)
  else none

/-- Scanner dispatch between tokens: whitespace, punctuation, or the first
character of a string, number or literal; anything else is rejected. -/
def lexTopStep (c : Char) : Option (List JTok × LexMode) :=
  if isJsonWs c then some ([], LexMode.top)
  else
    match punctTok c with
    | some t => some ([t], LexMode.top)
    | none =>
      if c = '"' then some ([], LexMode.instr [])
      else if c.isDigit || c = '-' then some ([], LexMode.innum [c])
      else
        match litStart c with
        | some (rest, t) => some ([], LexMode.inlit rest t)
        | none => none

/-- One step of the lexer on one character: the tokens it emits and the
next mode, or none when json.loads would reject.  String accumulators and
number runs are kept reversed; a number token is emitted when the first
character past the run is dispatched (json.loads matches NUMBER_RE, then
rescans from the character after the match). -/
def lexStep : LexMode → Char → Option (List JTok × LexMode)
  | LexMode.top, c => lexTopStep c
  | LexMode.instr acc, c =>
    if c = '"' then some ([JTok.str acc.reverse], LexMode.top)
    else if c = '\\' then some ([], LexMode.esc acc)
    else if c.toNat < 32 then none
    else some ([], LexMode.instr (c :: acc))
  | LexMode.esc acc, c =>
    if c = 'u' then some ([], LexMode.uni acc [])
    else
      match escChar c with
      | some d => some ([], LexMode.instr (d :: acc))
      | none => none
  | LexMode.uni acc hs, c =>
    match hexVal c with
    | some v =>
      if hs.length = 3 then
        some ([], LexMode.instr (Char.ofNat (hs.foldl (fun a h => a * 16 + h) 0 * 16 + v) :: acc))
      else some ([], LexMode.uni acc (hs ++ [v]))
    | none => none
  | LexMode.innum run, c =>
    if isNumChar c then some ([], LexMode.innum (c :: run))
    else if validNumber run.reverse then
      match lexTopStep c with
      | some (toks, m2) => some (JTok.num run.reverse :: toks, m2)
      | none => none
    else none
  | LexMode.inlit rest t, c =>
    match rest with
    | [] => none
    | r0 :: rrest =>
      if c = r0 then
        if rrest.isEmpty then some ([t], LexMode.top) else some ([], LexMode.inlit rrest t)
      else none

/-- End of input: only between tokens or at the end of a number run is the
scan complete. -/
def lexEnd : LexMode → Option (List JTok)
  | LexMode.top => some []
  | LexMode.innum run => if validNumber run.reverse then some [JTok.num run.reverse] else none
  | _ => none

/-- Run the lexer over the characters. -/
def lexGo : LexMode → List Char → Option (List JTok)
  | m, [] => lexEnd m
  | m, c :: cs =>
    match lexStep m c with
    | some (toks, m2) => (lexGo m2 cs).map (fun ts => toks ++ ts)
    | none => none

/-- A mode the lexer can actually be in: pending literal characters are
never whitespace.  Needed because trailing whitespace could complete an
arbitrary pending literal, but never one of rue, alse, ull. -/
def modeOk : LexMode → Bool
  | LexMode.inlit rest _ => rest.all (fun c => !(isPyWs c))
  | _ => true

/-- JSON values; numbers keep their raw lexeme. -/
inductive J where
  | str (s : List Char)
  | num (raw : List Char)
  | bool (b : Bool)
  | null
  | arr (elems : List J)
  | obj (members : List (List Char × J))

mutual

/-- Parse one JSON value from a token stream (fueled recursive descent). -/
def parseVal : Nat → List JTok → Option (J × List JTok)
  | 0, _ => none
  | f + 1, ts =>
    match ts with
    | JTok.str s :: r => some (J.str s, r)
    | JTok.num n :: r => some (J.num n, r)
    | JTok.tru :: r => some (J.bool true, r)
    | JTok.fls :: r => some (J.bool false, r)
    | JTok.nul :: r => some (J.null, r)
    | JTok.lbrace :: JTok.rbrace :: r => some (J.obj [], r)
    | JTok.lbrace :: r => parseMembers f r []
    | JTok.lbrack :: JTok.rbrack :: r => some (J.arr [], r)
    | JTok.lbrack :: r => parseElems f r []
    | _ => none

/-- Parse the members of a nonempty object after its opening brace. -/
def parseMembers : Nat → List JTok → List (List Char × J) → Option (J × List JTok)
  | 0, _, _ => none
  | f + 1, JTok.str k :: JTok.colon :: r, acc =>
    match parseVal f r with
    | some (v, JTok.comma :: r2) => parseMembers f r2 (acc ++ [(k, v)])
    | some (v, JTok.rbrace :: r2) => some (J.obj (acc ++ [(k, v)]), r2)
    | _ => none
  | _ + 1, _, _ => none

/-- Parse the elements of a nonempty array after its opening bracket. -/
def parseElems : Nat → List JTok → List J → Option (J × List JTok)
  | 0, _, _ => none
  | f + 1, ts, acc =>
    match parseVal f ts with
    | some (v, JTok.comma :: r2) => parseElems f r2 (acc ++ [v])
    | some (v, JTok.rbrack :: r2) => some (J.arr (acc ++ [v]), r2)
    | _ => none

end

/-- Model of json.loads: lex, then parse exactly one value consuming every
token ("Extra data" otherwise). -/
def parseJson (s : String) : Option J :=
  match lexGo LexMode.top s.toList with
  | some ts =>
    match parseVal (2 * ts.length + 2) ts with
    | some (v, []) => some v
    | _ => none
  | none => none

/-! ## Plan access -/

def keyTextSwap : List Char := "text_swap".toList

def keyProductSwap : List Char := "product_swap".toList

def keyEdits : List Char := "edits".toList

/-- Python dict lookup; a later duplicate key overwrites an earlier one. -/
def objFind (m : List (List Char × J)) (k : List Char) : Option J :=
  (m.reverse.find? (fun p => p.1 == k)).map (fun p => p.2)

/-- Python subscript job[k]: none models the KeyError or TypeError raised
when the key is absent or the value is not a dict. -/
def jGetKey (j : J) (k : List Char) : Option J :=
  match j with
  | J.obj m => objFind m k
  | _ => none

/-- The parsed value is an object with exactly the three plan keys, all
string-valued; returns the three strings. -/
def planShape (j : J) : Option (List Char × List Char × List Char) :=
  match j with
  | J.obj m =>
    if (m.map (fun p => p.1)).all
        (fun k => k == keyTextSwap || k == keyProductSwap || k == keyEdits) then
      match objFind m keyTextSwap, objFind m keyProductSwap, objFind m keyEdits with
      | some (J.str x), some (J.str y), some (J.str z) => some (x, y, z)
      | _, _, _ => none
    else none
  | _ => none

/-- Extractor-then-parser pipeline applied by flow (app.py line 332). -/
def pipelineParse (t : String) : Option J := parseJson (extract_x t "json")

/-- A planner answer wrapped in fenced-block markers as in spec scenario A. -/
def wrapJson (s : String) : String := "```json\n" ++ s ++ "\n```"

/-! ## Usage accounting -/

/-- Usage record attached to one model call. -/
structure Usage where
  input_tokens : Nat
  output_tokens : Nat
deriving DecidableEq

/-- Field-wise summation of two usage records (app.py 329-339). -/
def addUsage (a b : Usage) : Usage :=
  ⟨a.input_tokens + b.input_tokens, a.output_tokens + b.output_tokens⟩

/-- Aggregation over a batch of usage records (app.py 397-398). -/
def sumUsage (l : List Usage) : Usage := l.foldl addUsage ⟨0, 0⟩

/-- Token counts as reported on a usage object; none models an attribute
that is missing or null, both turned into 0 by getattr's default and the
trailing "or 0". -/
structure RawUsage where
  prompt_token_count : Option Nat
  candidates_token_count : Option Nat
deriving DecidableEq

/-- The usage-bearing shapes of a model response: each attribute may be
absent entirely (outer none) or present but null (inner none). -/
structure UsageShape where
  usage_metadata : Option (Option RawUsage)
  usage : Option (Option RawUsage)
deriving DecidableEq

/-- Read one token count off a possibly-null usage object. -/
def rawField (md : Option RawUsage) (f : RawUsage → Option Nat) : Nat :=
  match md with
  | some m => (f m).getD 0
  | none => 0

/-- Usage extraction as written identically in gemini_response
(app.py 50-57) and gemini_image_response (app.py 85-91): prefer a
usage_metadata attribute, else a usage attribute, defaulting to zero. -/
def extractUsage (r : UsageShape) : Usage :=
  match r.usage_metadata with
  | some md =>
    ⟨rawField md (fun m => m.prompt_token_count),
     rawField md (fun m => m.candidates_token_count)⟩
  | none =>
    match r.usage with
    | some md =>
      ⟨rawField md (fun m => m.prompt_token_count),
       rawField md (fun m => m.candidates_token_count)⟩
    | none => ⟨0, 0⟩

/-! ## The image call and the save step -/

/-- One part of the image response's first candidate. -/
structure RespPart where
  inline_data : Option (List Nat)
deriving DecidableEq

/-- The scan in gemini_image_response (app.py 93-98): the first part
carrying inline data, or none when no part does — returned, not raised. -/
def scanParts (parts : List RespPart) : Option (List Nat) :=
  (parts.find? (fun p => p.inline_data.isSome)).bind (fun p => p.inline_data)

/-- An image-generation response: candidate parts plus usage shape. -/
structure ImageResponse where
  parts : List RespPart
  meta : UsageShape
deriving DecidableEq

/-- Result of gemini_image_response: (image bytes or none, usage). -/
def geminiImageResult (r : ImageResponse) : Option (List Nat) × Usage :=
  (scanParts r.parts, extractUsage r.meta)

/-- Outcome of the save step of process_single_image (app.py 355-359):
open(..., "wb") creates the file unconditionally, then f.write raises
TypeError when flow returned none instead of bytes, leaving the file
empty. -/
structure SaveOutcome where
  fileCreated : Bool
  fileContents : Option (List Nat)
  raised : Bool
deriving DecidableEq

/-- The save step applied to flow's image output. -/
def saveOutput (b : Option (List Nat)) : SaveOutcome :=
  match b with
  | some bs => ⟨true, some bs, false⟩
  | none => ⟨true, none, true⟩

/-! ## The orchestrator (app.py flow, lines 323-341) -/

/-- Which external model calls fired, in order. -/
inductive CallTag where
  | textCall
  | imageCall
deriving DecidableEq

/-- Failure modes of one orchestrator run. -/
inductive FlowErr where
  | upstream
  | malformedPlan
  | keyMissing
deriving DecidableEq

/-- The three subscript accesses job[...] used to build the render prompt
(app.py 335); none models the KeyError that aborts flow. -/
def planKeys3 (j : J) : Option (J × J × J) :=
  match jGetKey j keyTextSwap, jGetKey j keyProductSwap, jGetKey j keyEdits with
  | some t, some p, some e => some (t, p, e)
  | _, _, _ => none

/-- Remainder of flow after the plan parsed: the key accesses, then the
image call. -/
def flowAfterPlan (u0 : Usage) (j : J)
    (image : Except Unit (Option (List Nat) × Usage)) :
    Except FlowErr (Option (List Nat) × Usage) × List CallTag :=
  match planKeys3 j with
  | none => (Except.error FlowErr.keyMissing, [CallTag.textCall])
  | some _ =>
    match image with
    | Except.error _ =>
      (Except.error FlowErr.upstream, [CallTag.textCall, CallTag.imageCall])
    | Except.ok (b, u1) =>
      (Except.ok (b, addUsage u0 u1), [CallTag.textCall, CallTag.imageCall])

/-- app.py flow with the two model calls supplied as oracles: planner
call, JSON extraction and parsing, the three key accesses used to build
the render prompt, then the image call.  The second component logs which
calls fired. -/
def flowModel (planner : Except Unit (String × Usage))
    (image : Except Unit (Option (List Nat) × Usage)) :
    Except FlowErr (Option (List Nat) × Usage) × List CallTag :=
  match planner with
  | Except.error _ => (Except.error FlowErr.upstream, [CallTag.textCall])
  | Except.ok (text0, u0) =>
    match parseJson (extract_x text0 "json") with
    | none => (Except.error FlowErr.malformedPlan, [CallTag.textCall])
    | some job => flowAfterPlan u0 job image

/-! ## Render prompt construction (C9) -/

/-- The values substituted into the three placeholders of job_unified
([CAMPAIGN DATA], [GUIDELINES], [EDIT INSTRUCTIONS]); the constant
template text around them is abstracted away. -/
structure UnifiedPrompt where
  campaignSlot : String
  guidelinesSlot : String
  editSlot : String
deriving DecidableEq

/-- Python str() of a JSON value as str.format applies it to a slot;
claims only exercise string values, container rendering is abbreviated. -/
def pyStr : J → String
  | J.str s => String.mk s
  | J.num r => String.mk r
  | J.bool true => "True"
  | J.bool false => "False"
  | J.null => "None"
  | J.arr _ => "<list>"
  | J.obj _ => "<dict>"

/-- Render prompt built by flow (app.py 334-335): all three slots are the
plan's fields text_swap, product_swap, edits in that order. -/
def flowRenderPrompt (job : J) : Option UnifiedPrompt :=
  match jGetKey job keyTextSwap, jGetKey job keyProductSwap, jGetKey job keyEdits with
  | some t, some p, some e => some ⟨pyStr t, pyStr p, pyStr e⟩
  | _, _, _ => none

/-- Render prompt built by the interactive variant
(streamlit_app.py 175-179): the first slot is the operator's campaign
text, and only product_swap and edits are read from the stored plan. -/
def streamlitRenderPrompt (campaign_info : String) (job : J) : Option UnifiedPrompt :=
  match jGetKey job keyProductSwap, jGetKey job keyEdits with
  | some p, some e => some ⟨campaign_info, pyStr p, pyStr e⟩
  | _, _ => none

/-! ## The interactive plan-edit step (C10) -/

/-- Python dict.get with a default. -/
def dictGetD (m : List (List Char × J)) (k : List Char) (d : J) : J :=
  (objFind m k).getD d

/-- Plan-edit step of the interactive variant (streamlit_app.py 118-150):
each text area is seeded with job.get(key, "") and the session plan is
re-stored as exactly these three keys. -/
def editStepDefaults (m : List (List Char × J)) : List (List Char × J) :=
  [(keyTextSwap, dictGetD m keyTextSwap (J.str [])),
   (keyProductSwap, dictGetD m keyProductSwap (J.str [])),
   (keyEdits, dictGetD m keyEdits (J.str []))]

/-! ## The batch runner (app.py main, lines 364-414) -/

/-- A directory entry: Path stem and Path suffix (the extension with its
leading dot). -/
structure RefFile where
  stem : String
  ext : String
deriving DecidableEq

/-- The recognized image extensions (app.py 375). -/
def imageExtensions : List String :=
  [".jpg", ".jpeg", ".png", ".bmp", ".gif", ".webp"]

/-- Python str.lower restricted to ASCII, as applied to an extension. -/
def asciiLower (c : Char) : Char :=
  if 'A' ≤ c && c ≤ 'Z' then Char.ofNat (c.toNat + 32) else c

/-- Lowercase a suffix string (Path.suffix.lower()). -/
def lowerExt (s : String) : String := String.mk (s.toList.map asciiLower)

/-- Reference discovery in main (app.py 378-382): directory entries whose
lowercased extension is recognized. -/
def discoverRefs (listing : List RefFile) : List RefFile :=
  listing.filter (fun f => imageExtensions.contains (lowerExt f.ext))

/-- The slice main actually schedules (app.py 390): ref_image_paths[3:]. -/
def batchSelected (listing : List RefFile) : List RefFile :=
  (discoverRefs listing).drop 3

/-- Output file names produced when every scheduled run succeeds
(app.py 355). -/
def batchOutputNames (listing : List RefFile) : List String :=
  (batchSelected listing).map (fun f => f.stem ++ "_new_1_gen.png")

/-- The printed aggregate count (app.py 399): len(usage_results). -/
def batchPrintedCount (listing : List RefFile) : Nat :=
  (batchSelected listing).length

/-! ## The admission gate (app.py 385, asyncio.Semaphore(3)) -/

/-- Capacity passed to asyncio.Semaphore in main. -/
def semCapacity : Nat := 3

/-- Scheduler state of the batch: queued runs, runs past the admission
gate, completed runs. -/
structure BatchSchedState where
  pending : Nat
  inFlight : Nat
  completed : Nat
deriving DecidableEq

/-- One scheduling step: admission of a queued run when a slot is free
(the async with semaphore entry), or completion of an in-flight run,
which releases its slot. -/
inductive SchedStep : BatchSchedState → BatchSchedState → Prop where
  | acquire (s : BatchSchedState) (hp : 0 < s.pending) (hc : s.inFlight < semCapacity) :
      SchedStep s ⟨s.pending - 1, s.inFlight + 1, s.completed⟩
  | release (s : BatchSchedState) (hf : 0 < s.inFlight) :
      SchedStep s ⟨s.pending, s.inFlight - 1, s.completed + 1⟩

/-- States reachable from a fresh batch of n queued runs. -/
inductive SchedReachable (n : Nat) : BatchSchedState → Prop where
  | init : SchedReachable n ⟨n, 0, 0⟩
  | step {s t : BatchSchedState} : SchedReachable n s → SchedStep s t → SchedReachable n t

/-! ## Lemmas about the extractor -/

theorem isPrefixOf_nil_false (l : List Char) (h : l ≠ []) :
    l.isPrefixOf ([] : List Char) = false := by
  cases l with
  | nil => exact absurd rfl h
  | cons c cs => rfl

theorem fenceMarker_ne_nil : fenceMarker ≠ [] := by decide

theorem fenceOpen_ne_nil (tag : List Char) : fenceOpen tag ≠ [] := by
  unfold fenceOpen
  cases h : fenceMarker with
  | nil => exact absurd h fenceMarker_ne_nil
  | cons c cs => simp

theorem fence_head_not_pyws {c : Char} {cs : List Char}
    (h : fenceMarker.isPrefixOf (c :: cs) = true) : isPyWs c = false := by
  have hm : fenceMarker = Char.ofNat 96 :: Char.ofNat 96 :: [Char.ofNat 96] := by decide
  rw [hm] at h
  simp [List.isPrefixOf] at h
  rw [← h.1]
  decide

theorem captureTo_none_iff (l : List Char) :
    captureTo l = none ↔ ∀ k, fenceMarker.isPrefixOf (l.drop k) = false := by
  induction l with
  | nil =>
    simp only [captureTo, List.drop_nil, true_iff]
    intro k
    exact isPrefixOf_nil_false _ fenceMarker_ne_nil
  | cons c cs ih =>
    by_cases hp : fenceMarker.isPrefixOf (c :: cs) = true
    · simp only [captureTo, hp, if_true]
      constructor
      · intro h; exact absurd h (by simp)
      · intro hall
        have := hall 0
        rw [List.drop_zero] at this
        rw [hp] at this
        exact absurd this (by simp)
    · have hp' : fenceMarker.isPrefixOf (c :: cs) = false := by
        cases h : fenceMarker.isPrefixOf (c :: cs) with
        | true => exact absurd h hp
        | false => rfl
      simp only [captureTo, hp', Bool.false_eq_true, if_false, Option.map_eq_none']
      rw [ih]
      constructor
      · intro hall k
        cases k with
        | zero => rw [List.drop_zero]; exact hp'
        | succ k => rw [List.drop_succ_cons]; exact hall k
      · intro hall k
        have := hall (k + 1)
        rwa [List.drop_succ_cons] at this

theorem exFence_dropWhile (l : List Char) :
    (∃ k, fenceMarker.isPrefixOf ((l.dropWhile isPyWs).drop k) = true) ↔
    (∃ k, fenceMarker.isPrefixOf (l.drop k) = true) := by
  induction l with
  | nil => simp [List.dropWhile_nil]
  | cons c cs ih =>
    by_cases hw : isPyWs c = true
    · rw [List.dropWhile_cons_of_pos hw]
      rw [ih]
      constructor
      · rintro ⟨k, hk⟩
        exact ⟨k + 1, by rwa [List.drop_succ_cons]⟩
      · rintro ⟨k, hk⟩
        cases k with
        | zero =>
          rw [List.drop_zero] at hk
          have := fence_head_not_pyws hk
          rw [hw] at this
          exact absurd this (by simp)
        | succ k =>
          rw [List.drop_succ_cons] at hk
          exact ⟨k, hk⟩
    · have hw' : isPyWs c = false := by
        cases h : isPyWs c with
        | true => exact absurd h hw
        | false => rfl
      rw [List.dropWhile_cons_of_neg (by rw [hw']; simp)]

theorem MatchesAt_shift (tag : List Char) (c : Char) (cs : List Char) (i : Nat) :
    MatchesAt tag (c :: cs) (i + 1) ↔ MatchesAt tag cs i := by
  unfold MatchesAt
  rw [List.drop_succ_cons]
  have harith : i + 1 + (fenceOpen tag).length = (i + (fenceOpen tag).length) + 1 := by omega
  rw [harith, List.drop_succ_cons]

theorem fenceMatchHere_none_iff (tag s : List Char) :
    fenceMatchHere tag s = none ↔ ¬ MatchesAt tag s 0 := by
  unfold fenceMatchHere MatchesAt
  rw [List.drop_zero, Nat.zero_add]
  by_cases ho : (fenceOpen tag).isPrefixOf s = true
  · simp only [ho, if_true, true_and]
    rw [captureTo_none_iff]
    constructor
    · intro hall ⟨k, hk⟩
      have := (exFence_dropWhile (s.drop (fenceOpen tag).length)).2 ⟨k, hk⟩
      obtain ⟨k', hk'⟩ := this
      rw [hall k'] at hk'
      exact absurd hk' (by simp)
    · intro hne k
      cases h : fenceMarker.isPrefixOf (((s.drop (fenceOpen tag).length).dropWhile isPyWs).drop k) with
      | false => rfl
      | true =>
        exact absurd ((exFence_dropWhile _).1 ⟨k, h⟩) hne
  · have ho' : (fenceOpen tag).isPrefixOf s = false := by
      cases h : (fenceOpen tag).isPrefixOf s with
      | true => exact absurd h ho
      | false => rfl
    simp [ho']

theorem fenceMatchHere_some_of (tag s : List Char) (h : MatchesAt tag s 0) :
    fenceMatchHere tag s = some (captureAt tag s 0) := by
  obtain ⟨ho, k, hk⟩ := h
  rw [List.drop_zero] at ho
  rw [Nat.zero_add] at hk
  unfold fenceMatchHere captureAt
  rw [Nat.zero_add]
  simp only [ho, if_true]
  obtain ⟨k', hk'⟩ := (exFence_dropWhile (s.drop (fenceOpen tag).length)).2 ⟨k, hk⟩
  cases hc : captureTo ((s.drop (fenceOpen tag).length).dropWhile isPyWs) with
  | none =>
    rw [captureTo_none_iff] at hc
    rw [hc k'] at hk'
    exact absurd hk' (by simp)
  | some v => rfl

theorem fenceSearch_none_iff (tag s : List Char) :
    fenceSearch tag s = none ↔ ∀ i, ¬ MatchesAt tag s i := by
  induction s with
  | nil =>
    unfold fenceSearch
    rw [fenceMatchHere_none_iff]
    constructor
    · intro h0 i
      intro ⟨ho, hrest⟩
      rw [List.drop_nil] at ho
      rw [isPrefixOf_nil_false _ (fenceOpen_ne_nil tag)] at ho
      exact absurd ho (by simp)
    · intro hall; exact hall 0
  | cons c cs ih =>
    unfold fenceSearch
    cases hm : fenceMatchHere tag (c :: cs) with
    | some r =>
      simp only
      constructor
      · intro h; exact absurd h (by simp)
      · intro hall
        have h0 := (fenceMatchHere_none_iff tag (c :: cs)).2 (hall 0)
        rw [h0] at hm
        exact absurd hm (by simp)
    | none =>
      simp only
      rw [ih]
      rw [fenceMatchHere_none_iff] at hm
      constructor
      · intro hall i
        cases i with
        | zero => exact hm
        | succ i =>
          rw [MatchesAt_shift]
          exact hall i
      · intro hall i
        have := hall (i + 1)
        rwa [MatchesAt_shift] at this

theorem fenceSearch_first (tag s : List Char) (i : Nat) (h : MatchesAt tag s i)
    (hmin : ∀ j, j < i → ¬ MatchesAt tag s j) :
    fenceSearch tag s = some (captureAt tag s i) := by
  induction s generalizing i with
  | nil =>
    obtain ⟨ho, _⟩ := h
    rw [List.drop_nil] at ho
    rw [isPrefixOf_nil_false _ (fenceOpen_ne_nil tag)] at ho
    exact absurd ho (by simp)
  | cons c cs ih =>
    cases i with
    | zero =>
      unfold fenceSearch
      rw [fenceMatchHere_some_of tag (c :: cs) h]
    | succ i =>
      have h0 : ¬ MatchesAt tag (c :: cs) 0 := hmin 0 (Nat.succ_pos i)
      rw [← fenceMatchHere_none_iff] at h0
      unfold fenceSearch
      rw [h0]
      simp only
      have hcs : MatchesAt tag cs i := (MatchesAt_shift tag c cs i).1 h
      have hmincs : ∀ j, j < i → ¬ MatchesAt tag cs j := by
        intro j hj
        rw [← MatchesAt_shift tag c cs j]
        exact hmin (j + 1) (by omega)
      rw [ih i hcs hmincs]
      unfold captureAt
      have harith : i + 1 + (fenceOpen tag).length = (i + (fenceOpen tag).length) + 1 := by omega
      rw [harith, List.drop_succ_cons]

/-- C4: for every input string and every (literal) language tag, extract_x
returns the stripped content of the first fenced block matching the tag
when one exists (the least offset whose match attempt succeeds), and
returns the original input unchanged when no attempt succeeds; being a
total function, it never raises. -/
theorem extract_x_contract (s tag : String) :
    ((∀ i, ¬ MatchesAt tag.toList s.toList i) → extract_x s tag = s) ∧
    (∀ i, MatchesAt tag.toList s.toList i → (∀ j, j < i → ¬ MatchesAt tag.toList s.toList j) →
      extract_x s tag = String.mk (pyStrip (captureAt tag.toList s.toList i))) := by
  constructor
  · intro hall
    unfold extract_x
    rw [(fenceSearch_none_iff tag.toList s.toList).2 hall]
  · intro i h hmin
    unfold extract_x
    rw [fenceSearch_first tag.toList s.toList i h hmin]

/-- Witness for C4 at a concrete input: the block at offset 0 matches and
the extractor returns its stripped content. -/
theorem extract_x_contract_witness :
    MatchesAt ("json".toList) ("```json x```".toList) 0 ∧ extract_x "```json x```" "json" = "x" := by
  have hm : MatchesAt ("json".toList) ("```json x```".toList) 0 := ⟨by decide, 2, by decide⟩
  refine ⟨hm, ?_⟩
  have h := (extract_x_contract "```json x```" "json").2 0 hm
    (fun j hj => absurd hj (Nat.not_lt_zero j))
  rw [h]
  decide

/-! ## Lemmas about the lexer and boundary whitespace -/

theorem pyws_cases {c : Char} (h : isPyWs c = true) :
    c = ' ' ∨ c = '\t' ∨ c = '\n' ∨ c = '\r' ∨ c = Char.ofNat 11 ∨ c = Char.ofNat 12 := by
  simp [isPyWs] at h
  tauto

theorem pyws_lexTopStep {c : Char} (h : isPyWs c = true) :
    lexTopStep c = if isJsonWs c then some ([], LexMode.top) else none := by
  rcases pyws_cases h with rfl | rfl | rfl | rfl | rfl | rfl <;> decide

theorem lexTopStep_modeOk {c : Char} {toks : List JTok} {m2 : LexMode}
    (h : lexTopStep c = some (toks, m2)) : modeOk m2 = true := by
  unfold lexTopStep at h
  split at h
  · injection h with h1; injection h1 with h2 h3; subst h3; rfl
  · split at h
    · injection h with h1; injection h1 with h2 h3; subst h3; rfl
    · split at h
      · injection h with h1; injection h1 with h2 h3; subst h3; rfl
      · split at h
        · injection h with h1; injection h1 with h2 h3; subst h3; rfl
        · split at h
          · rename_i rest t hlit
            injection h with h1; injection h1 with h2 h3; subst h3
            unfold litStart at hlit
            repeat' split at hlit
            all_goals first
              | exact Option.noConfusion hlit
              | (injection hlit with h4; injection h4 with h5 h6; subst h5; subst h6; decide)
          · exact Option.noConfusion h

theorem lexStep_modeOk {m : LexMode} {c : Char} {toks : List JTok} {m2 : LexMode}
    (hm : modeOk m = true) (h : lexStep m c = some (toks, m2)) : modeOk m2 = true := by
  cases m with
  | top => exact lexTopStep_modeOk h
  | instr acc =>
    simp only [lexStep] at h
    repeat' split at h
    all_goals first
      | exact Option.noConfusion h
      | (injection h with h1; injection h1 with h2 h3; subst h3; rfl)
  | esc acc =>
    simp only [lexStep] at h
    repeat' split at h
    all_goals first
      | exact Option.noConfusion h
      | (injection h with h1; injection h1 with h2 h3; subst h3; rfl)
  | uni acc hs =>
    simp only [lexStep] at h
    repeat' split at h
    all_goals first
      | exact Option.noConfusion h
      | (injection h with h1; injection h1 with h2 h3; subst h3; rfl)
  | innum run =>
    simp only [lexStep] at h
    split at h
    · injection h with h1
      injection h1 with h2 h3
      subst h3
      rfl
    · split at h
      · split at h
        · rename_i toks2 m3 htop
          injection h with h1
          injection h1 with h2 h3
          subst h3
          exact lexTopStep_modeOk htop
        · exact Option.noConfusion h
      · exact Option.noConfusion h
  | inlit rest t =>
    simp only [lexStep] at h
    split at h
    · exact Option.noConfusion h
    · rename_i r0 rrest
      split at h
      · split at h
        · injection h with h1
          injection h1 with h2 h3
          subst h3
          rfl
        · injection h with h1
          injection h1 with h2 h3
          subst h3
          simp only [modeOk, List.all_cons, Bool.and_eq_true] at hm ⊢
          exact hm.2
      · exact Option.noConfusion h

theorem pyws_ne_quote {c : Char} (h : isPyWs c = true) : ¬ (c = '"') := by
  rcases pyws_cases h with rfl | rfl | rfl | rfl | rfl | rfl <;> decide

theorem pyws_ne_backslash {c : Char} (h : isPyWs c = true) : ¬ (c = '\\') := by
  rcases pyws_cases h with rfl | rfl | rfl | rfl | rfl | rfl <;> decide

theorem pyws_ne_u {c : Char} (h : isPyWs c = true) : ¬ (c = 'u') := by
  rcases pyws_cases h with rfl | rfl | rfl | rfl | rfl | rfl <;> decide

theorem pyws_escChar {c : Char} (h : isPyWs c = true) : escChar c = none := by
  rcases pyws_cases h with rfl | rfl | rfl | rfl | rfl | rfl <;> decide

theorem pyws_hexVal {c : Char} (h : isPyWs c = true) : hexVal c = none := by
  rcases pyws_cases h with rfl | rfl | rfl | rfl | rfl | rfl <;> decide

theorem pyws_not_isNumChar {c : Char} (h : isPyWs c = true) : ¬ (isNumChar c = true) := by
  rcases pyws_cases h with rfl | rfl | rfl | rfl | rfl | rfl <;> decide

/-- Whitespace at the end of the input: if the remaining characters are all
Python whitespace, the lexer finishes exactly as it would at end of input. -/
theorem lexGo_pyws_end : ∀ (w : List Char) (m : LexMode) (ts : List JTok),
    (∀ c ∈ w, isPyWs c = true) → modeOk m = true → lexGo m w = some ts →
    lexEnd m = some ts := by
  intro w
  induction w with
  | nil => intro m ts _ _ h; exact h
  | cons c w2 ih =>
    intro m ts hw hm h
    have hc : isPyWs c = true := hw c (List.mem_cons_self c w2)
    have hw2 : ∀ x ∈ w2, isPyWs x = true := fun x hx => hw x (List.mem_cons_of_mem c hx)
    simp only [lexGo] at h
    cases hs : lexStep m c with
    | none => rw [hs] at h; exact Option.noConfusion h
    | some p =>
      obtain ⟨toks, m2⟩ := p
      rw [hs] at h
      dsimp only at h
      cases hg : lexGo m2 w2 with
      | none => rw [hg] at h; exact Option.noConfusion h
      | some ts2 =>
        rw [hg] at h
        injection h with h1
        have hend2 : lexEnd m2 = some ts2 := ih m2 ts2 hw2 (lexStep_modeOk hm hs) hg
        subst h1
        cases m with
        | top =>
          rw [show lexStep LexMode.top c = lexTopStep c from rfl, pyws_lexTopStep hc] at hs
          split at hs
          · injection hs with h2
            injection h2 with h3 h4
            subst h3
            subst h4
            injection hend2 with h5
            subst h5
            exact rfl
          · exact Option.noConfusion hs
        | instr acc =>
          simp only [lexStep] at hs
          rw [if_neg (pyws_ne_quote hc), if_neg (pyws_ne_backslash hc)] at hs
          split at hs
          · exact Option.noConfusion hs
          · injection hs with h2
            injection h2 with h3 h4
            subst h4
            exact Option.noConfusion hend2
        | esc acc =>
          simp only [lexStep] at hs
          rw [if_neg (pyws_ne_u hc), pyws_escChar hc] at hs
          exact Option.noConfusion hs
        | uni acc hxs =>
          simp only [lexStep] at hs
          rw [pyws_hexVal hc] at hs
          exact Option.noConfusion hs
        | innum run =>
          simp only [lexStep] at hs
          rw [if_neg (pyws_not_isNumChar hc)] at hs
          split at hs
          · rename_i hv
            rw [pyws_lexTopStep hc] at hs
            split at hs
            · rename_i toks2 m3 heq2
              split at heq2
              · injection heq2 with h5
                injection h5 with h6 h7
                subst h6
                subst h7
                injection hs with h2
                injection h2 with h3 h4
                subst h3
                subst h4
                injection hend2 with h8
                subst h8
                rw [show lexEnd (LexMode.innum run) =
                      (if validNumber run.reverse then some [JTok.num run.reverse] else none) from rfl]
                rw [if_pos hv]
                rfl
              · exact Option.noConfusion heq2
            · exact Option.noConfusion hs
          · exact Option.noConfusion hs
        | inlit rest t =>
          simp only [lexStep] at hs
          cases rest with
          | nil => exact Option.noConfusion hs
          | cons r0 rrest =>
            dsimp only at hs
            split at hs
            · rename_i hcr
              simp only [modeOk, List.all_cons, Bool.and_eq_true] at hm
              have hr0 : isPyWs r0 = false := by
                have := hm.1
                rwa [Bool.not_eq_true'] at this
              rw [hcr] at hc
              rw [hc] at hr0
              exact Bool.noConfusion hr0
            · exact Option.noConfusion hs

/-- Trailing Python whitespace can be removed without changing a
successful lex. -/
theorem lexGo_pyws_back : ∀ (l w : List Char) (m : LexMode) (ts : List JTok),
    (∀ c ∈ w, isPyWs c = true) → modeOk m = true → lexGo m (l ++ w) = some ts →
    lexGo m l = some ts := by
  intro l
  induction l with
  | nil =>
    intro w m ts hw hm h
    rw [List.nil_append] at h
    exact lexGo_pyws_end w m ts hw hm h
  | cons c cs ih =>
    intro w m ts hw hm h
    rw [List.cons_append] at h
    simp only [lexGo] at h
    cases hs : lexStep m c with
    | none => rw [hs] at h; exact Option.noConfusion h
    | some p =>
      obtain ⟨toks, m2⟩ := p
      rw [hs] at h
      change Option.map (fun ts => toks ++ ts) (lexGo m2 (cs ++ w)) = some ts at h
      cases hg : lexGo m2 (cs ++ w) with
      | none => rw [hg] at h; exact Option.noConfusion h
      | some ts2 =>
        rw [hg] at h
        have hcs : lexGo m2 cs = some ts2 := ih w m2 ts2 hw (lexStep_modeOk hm hs) hg
        simp only [lexGo]
        rw [hs]
        change Option.map (fun ts => toks ++ ts) (lexGo m2 cs) = some ts
        rw [hcs]
        exact h

/-- Leading Python whitespace: between tokens it is either skipped (the
JSON whitespace characters) or rejected, so a successful lex of the
whole input lexes the tail the same way. -/
theorem lexGo_pyws_front : ∀ (w l : List Char) (ts : List JTok),
    (∀ c ∈ w, isPyWs c = true) → lexGo LexMode.top (w ++ l) = some ts →
    lexGo LexMode.top l = some ts := by
  intro w
  induction w with
  | nil => intro l ts _ h; exact h
  | cons c w2 ih =>
    intro l ts hw h
    have hc : isPyWs c = true := hw c (List.mem_cons_self c w2)
    rw [List.cons_append] at h
    simp only [lexGo] at h
    rw [show lexStep LexMode.top c = lexTopStep c from rfl, pyws_lexTopStep hc] at h
    split at h
    · rename_i toks2 m3 heq2
      split at heq2
      · injection heq2 with h5
        injection h5 with h6 h7
        subst h6
        subst h7
        cases hg : lexGo LexMode.top (w2 ++ l) with
        | none => rw [hg] at h; exact Option.noConfusion h
        | some ts2 =>
          rw [hg] at h
          injection h with h1
          have h1x : ts2 = ts := by simpa using h1
          subst h1x
          exact ih l ts2 (fun x hx => hw x (List.mem_cons_of_mem c hx)) hg
      · exact Option.noConfusion heq2
    · exact Option.noConfusion h

theorem dropWhile_all_append {p : Char → Bool} (a y : List Char)
    (ha : ∀ c ∈ a, p c = true) : (a ++ y).dropWhile p = y.dropWhile p := by
  induction a with
  | nil => rfl
  | cons c a2 ih =>
    rw [List.cons_append, List.dropWhile_cons_of_pos (ha c (List.mem_cons_self c a2))]
    exact ih (fun x hx => ha x (List.mem_cons_of_mem c hx))

theorem dropWhile_eq_cons_head {p : Char → Bool} {c : Char} {cs : List Char} :
    ∀ l : List Char, l.dropWhile p = c :: cs → p c = false := by
  intro l h
  induction l with
  | nil => exact List.noConfusion h
  | cons x xs ih =>
    by_cases hx : p x = true
    · rw [List.dropWhile_cons_of_pos hx] at h
      exact ih h
    · rw [List.dropWhile_cons_of_neg hx] at h
      injection h with h1 h2
      subst h1
      cases hpx : p x with
      | false => rfl
      | true => exact absurd hpx hx

theorem pyStrip_decomp (l : List Char) :
    ∃ a b, l = a ++ pyStrip l ++ b ∧ (∀ c ∈ a, isPyWs c = true) ∧
      (∀ c ∈ b, isPyWs c = true) ∧
      (∀ c cs, pyStrip l = c :: cs → isPyWs c = false) ∧
      (∀ c cs, (pyStrip l).reverse = c :: cs → isPyWs c = false) := by
  refine ⟨l.takeWhile isPyWs, ((l.dropWhile isPyWs).reverse.takeWhile isPyWs).reverse,
    ?_, ?_, ?_, ?_, ?_⟩
  · have hd2 : l.dropWhile isPyWs =
        pyStrip l ++ ((l.dropWhile isPyWs).reverse.takeWhile isPyWs).reverse := by
      unfold pyStrip
      calc l.dropWhile isPyWs = (l.dropWhile isPyWs).reverse.reverse := by
            rw [List.reverse_reverse]
        _ = (((l.dropWhile isPyWs).reverse.takeWhile isPyWs) ++
              ((l.dropWhile isPyWs).reverse.dropWhile isPyWs)).reverse := by
            rw [List.takeWhile_append_dropWhile]
        _ = ((l.dropWhile isPyWs).reverse.dropWhile isPyWs).reverse ++
              ((l.dropWhile isPyWs).reverse.takeWhile isPyWs).reverse := by
            rw [List.reverse_append]
    calc l = l.takeWhile isPyWs ++ l.dropWhile isPyWs := by
          rw [List.takeWhile_append_dropWhile]
      _ = l.takeWhile isPyWs ++
            (pyStrip l ++ ((l.dropWhile isPyWs).reverse.takeWhile isPyWs).reverse) := by
          rw [← hd2]
      _ = l.takeWhile isPyWs ++ pyStrip l ++
            ((l.dropWhile isPyWs).reverse.takeWhile isPyWs).reverse := by
          rw [List.append_assoc]
  · exact fun c hc => List.mem_takeWhile_imp hc
  · intro c hc
    rw [List.mem_reverse] at hc
    exact List.mem_takeWhile_imp hc
  · intro c cs hpc
    apply dropWhile_eq_cons_head (p := isPyWs) l
    have hd2 : l.dropWhile isPyWs =
        pyStrip l ++ ((l.dropWhile isPyWs).reverse.takeWhile isPyWs).reverse := by
      unfold pyStrip
      calc l.dropWhile isPyWs = (l.dropWhile isPyWs).reverse.reverse := by
            rw [List.reverse_reverse]
        _ = (((l.dropWhile isPyWs).reverse.takeWhile isPyWs) ++
              ((l.dropWhile isPyWs).reverse.dropWhile isPyWs)).reverse := by
            rw [List.takeWhile_append_dropWhile]
        _ = ((l.dropWhile isPyWs).reverse.dropWhile isPyWs).reverse ++
              ((l.dropWhile isPyWs).reverse.takeWhile isPyWs).reverse := by
            rw [List.reverse_append]
    rw [hd2, hpc, List.cons_append]
  · intro c cs hpc
    have hrev : (l.dropWhile isPyWs).reverse.dropWhile isPyWs = c :: cs := by
      unfold pyStrip at hpc
      rwa [List.reverse_reverse] at hpc
    exact dropWhile_eq_cons_head _ hrev

theorem parseJson_pyStrip {s : String} {v : J} (h : parseJson s = some v) :
    parseJson (String.mk (pyStrip s.toList)) = some v := by
  unfold parseJson at h ⊢
  rw [show (String.mk (pyStrip s.toList)).toList = pyStrip s.toList from rfl]
  cases hlex : lexGo LexMode.top s.toList with
  | none => rw [hlex] at h; exact Option.noConfusion h
  | some ts =>
    rw [hlex] at h
    obtain ⟨a, b, hdec, ha, hb, _, _⟩ := pyStrip_decomp s.toList
    have h1 : lexGo LexMode.top (pyStrip s.toList ++ b) = some ts := by
      apply lexGo_pyws_front a _ ts ha
      rw [← List.append_assoc, ← hdec]
      exact hlex
    have h2 : lexGo LexMode.top (pyStrip s.toList) = some ts :=
      lexGo_pyws_back _ b LexMode.top ts hb rfl h1
    rw [h2]
    exact h

theorem parseJson_pyStrip_ne_nil {s : String} {v : J} (h : parseJson s = some v) :
    pyStrip s.toList ≠ [] := by
  intro hmid
  have h2 := parseJson_pyStrip h
  rw [hmid] at h2
  rw [show parseJson (String.mk []) = none from rfl] at h2
  exact Option.noConfusion h2

theorem isPrefixOf_nil_true (y : List Char) : ([] : List Char).isPrefixOf y = true := by
  cases y <;> rfl

theorem isPrefixOf_append_self (l y : List Char) : l.isPrefixOf (l ++ y) = true := by
  induction l with
  | nil => rw [List.nil_append]; exact isPrefixOf_nil_true y
  | cons c cs ih =>
    rw [List.cons_append]
    rw [show (c :: cs).isPrefixOf (c :: (cs ++ y)) = (c == c && cs.isPrefixOf (cs ++ y)) from rfl]
    simp [ih]

theorem fenceMarker_eq : fenceMarker = Char.ofNat 96 :: Char.ofNat 96 :: [Char.ofNat 96] := by
  decide

/-- A closing marker that overlaps the newline placed before the final
fence of the wrapper would need a backtick where the newline sits. -/
theorem fence_through_newline (u z : List Char)
    (h : fenceMarker.isPrefixOf (u ++ '\n' :: z) = true) :
    fenceMarker.isPrefixOf u = true := by
  rcases u with _ | ⟨a, _ | ⟨b, _ | ⟨d, rest⟩⟩⟩
  · rw [List.nil_append, fenceMarker_eq] at h
    rw [show (Char.ofNat 96 :: Char.ofNat 96 :: [Char.ofNat 96]).isPrefixOf ('\n' :: z) =
          (Char.ofNat 96 == '\n' && (Char.ofNat 96 :: [Char.ofNat 96]).isPrefixOf z) from rfl] at h
    rw [show (Char.ofNat 96 == '\n') = false from rfl] at h
    rw [Bool.false_and] at h
    exact Bool.noConfusion h
  · rw [List.cons_append, List.nil_append, fenceMarker_eq] at h
    rw [show (Char.ofNat 96 :: Char.ofNat 96 :: [Char.ofNat 96]).isPrefixOf (a :: '\n' :: z) =
          (Char.ofNat 96 == a && (Char.ofNat 96 == '\n' &&
            ([Char.ofNat 96] : List Char).isPrefixOf z)) from rfl] at h
    rw [show (Char.ofNat 96 == '\n') = false from rfl] at h
    rw [Bool.false_and, Bool.and_false] at h
    exact Bool.noConfusion h
  · rw [List.cons_append, List.cons_append, List.nil_append, fenceMarker_eq] at h
    rw [show (Char.ofNat 96 :: Char.ofNat 96 :: [Char.ofNat 96]).isPrefixOf
            (a :: b :: '\n' :: z) =
          (Char.ofNat 96 == a && (Char.ofNat 96 == b && (Char.ofNat 96 == '\n' &&
            ([] : List Char).isPrefixOf z))) from rfl] at h
    rw [show (Char.ofNat 96 == '\n') = false from rfl] at h
    rw [Bool.false_and, Bool.and_false, Bool.and_false] at h
    exact Bool.noConfusion h
  · rw [fenceMarker_eq] at h ⊢
    rw [List.cons_append, List.cons_append, List.cons_append] at h
    rw [show (Char.ofNat 96 :: Char.ofNat 96 :: [Char.ofNat 96]).isPrefixOf
            (a :: b :: d :: (rest ++ '\n' :: z)) =
          (Char.ofNat 96 == a && (Char.ofNat 96 == b && (Char.ofNat 96 == d &&
            ([] : List Char).isPrefixOf (rest ++ '\n' :: z)))) from rfl] at h
    rw [show (Char.ofNat 96 :: Char.ofNat 96 :: [Char.ofNat 96]).isPrefixOf (a :: b :: d :: rest) =
          (Char.ofNat 96 == a && (Char.ofNat 96 == b && (Char.ofNat 96 == d &&
            ([] : List Char).isPrefixOf rest))) from rfl]
    rw [isPrefixOf_nil_true] at h ⊢
    exact h

theorem hasFence_append_right (u v : List Char) (h : hasFence (u ++ v) = false) :
    hasFence v = false := by
  induction u with
  | nil => exact h
  | cons c cs ih =>
    rw [List.cons_append] at h
    rw [show hasFence (c :: (cs ++ v)) =
          (fenceMarker.isPrefixOf (c :: (cs ++ v)) || hasFence (cs ++ v)) from rfl] at h
    rcases Bool.or_eq_false_iff.mp h with ⟨_, h2⟩
    exact ih h2

theorem hasFence_cons_false {c : Char} {cs : List Char} (h : hasFence (c :: cs) = false) :
    fenceMarker.isPrefixOf (c :: cs) = false ∧ hasFence cs = false := by
  rw [show hasFence (c :: cs) = (fenceMarker.isPrefixOf (c :: cs) || hasFence cs) from rfl] at h
  exact Bool.or_eq_false_iff.mp h

/-- The lazy group scan over text with no inner fence, terminated by a
newline and the closing fence: everything before the closing fence is
captured. -/
theorem captureTo_newline_fence (x : List Char) (hx : hasFence x = false) :
    captureTo (x ++ '\n' :: fenceMarker) = some (x ++ ['\n']) := by
  induction x with
  | nil =>
    rw [List.nil_append]
    decide
  | cons c cs ih =>
    obtain ⟨h1, h2⟩ := hasFence_cons_false hx
    rw [List.cons_append]
    rw [show captureTo (c :: (cs ++ '\n' :: fenceMarker)) =
          (if fenceMarker.isPrefixOf (c :: (cs ++ '\n' :: fenceMarker)) then some []
           else (captureTo (cs ++ '\n' :: fenceMarker)).map (fun r => c :: r)) from rfl]
    have hno : fenceMarker.isPrefixOf (c :: (cs ++ '\n' :: fenceMarker)) = false := by
      cases hp : fenceMarker.isPrefixOf (c :: (cs ++ '\n' :: fenceMarker)) with
      | false => rfl
      | true =>
        have := fence_through_newline (c :: cs) fenceMarker (by rw [List.cons_append]; exact hp)
        rw [h1] at this
        exact Bool.noConfusion this
    rw [hno]
    rw [if_neg (by simp)]
    rw [ih h2]
    rw [Option.map_some']
    rw [List.cons_append]

theorem fenceSearch_of_matchHere (tag σ r : List Char)
    (h : fenceMatchHere tag σ = some r) : fenceSearch tag σ = some r := by
  cases σ with
  | nil => exact h
  | cons c cs =>
    rw [show fenceSearch tag (c :: cs) =
          (match fenceMatchHere tag (c :: cs) with
           | some r => some r
           | none => fenceSearch tag cs) from rfl]
    rw [h]

theorem pyStrip_of_trimmed (x bb : List Char)
    (hh : ∀ c cs, x = c :: cs → isPyWs c = false)
    (hl : ∀ c cs, x.reverse = c :: cs → isPyWs c = false)
    (hb : ∀ c ∈ bb, isPyWs c = true)
    (hne : x ≠ []) :
    pyStrip ((x ++ bb) ++ ['\n']) = x := by
  unfold pyStrip
  obtain ⟨c0, cs0, hx⟩ := List.exists_cons_of_ne_nil hne
  have h1 : (((x ++ bb) ++ ['\n']).dropWhile isPyWs) = (x ++ bb) ++ ['\n'] := by
    rw [hx, List.cons_append, List.cons_append]
    exact List.dropWhile_cons_of_neg (by simp [hh c0 cs0 hx])
  rw [h1]
  rw [show ((x ++ bb) ++ ['\n']).reverse = '\n' :: (bb.reverse ++ x.reverse) from by
    simp [List.reverse_append]]
  rw [List.dropWhile_cons_of_pos (by decide)]
  rw [dropWhile_all_append bb.reverse x.reverse
    (fun c hc => hb c (List.mem_reverse.mp hc))]
  have hxr : x.reverse ≠ [] := by
    rw [hx]
    simp
  obtain ⟨c1, cs1, hrev⟩ := List.exists_cons_of_ne_nil hxr
  rw [hrev, List.dropWhile_cons_of_neg (by simp [hl c1 cs1 hrev]), ← hrev,
    List.reverse_reverse]

theorem extract_wrapJson (s : String) (hnf : hasFence s.toList = false)
    (hne : pyStrip s.toList ≠ []) :
    extract_x (wrapJson s) "json" = String.mk (pyStrip s.toList) := by
  obtain ⟨a, b, hdec, ha, hb, hhead, hlast⟩ := pyStrip_decomp s.toList
  set mid := pyStrip s.toList with hmid
  have hσ : (wrapJson s).toList =
      fenceOpen ("json".toList) ++ ('\n' :: (s.toList ++ '\n' :: fenceMarker)) := by
    show ("```json\n" ++ s ++ "\n```").toList = _
    rw [show ("```json\n" ++ s ++ "\n```").toList =
          ("```json\n" : String).toList ++ s.toList ++ ("\n```" : String).toList from by simp]
    rw [show ("```json\n" : String).toList = fenceOpen ("json".toList) ++ ['\n'] from by decide]
    rw [show ("\n```" : String).toList = '\n' :: fenceMarker from by decide]
    simp [List.append_assoc]
  have hmidb : hasFence (mid ++ b) = false := by
    apply hasFence_append_right a
    rw [← List.append_assoc, ← hdec]
    exact hnf
  have hm : fenceMatchHere ("json".toList) ((wrapJson s).toList) =
      some ((mid ++ b) ++ ['\n']) := by
    unfold fenceMatchHere
    rw [hσ]
    rw [if_pos (isPrefixOf_append_self _ _)]
    rw [List.drop_left]
    rw [List.dropWhile_cons_of_pos (by decide : isPyWs '\n' = true)]
    rw [hdec]
    rw [List.append_assoc, List.append_assoc, dropWhile_all_append a _ ha]
    obtain ⟨c0, cs0, hx⟩ := List.exists_cons_of_ne_nil hne
    rw [hx, List.cons_append, List.dropWhile_cons_of_neg (by simp [hhead c0 cs0 hx]),
      ← List.cons_append, ← hx]
    rw [show mid ++ (b ++ '\n' :: fenceMarker) = (mid ++ b) ++ '\n' :: fenceMarker from by
      rw [List.append_assoc]]
    exact captureTo_newline_fence (mid ++ b) hmidb
  unfold extract_x
  rw [fenceSearch_of_matchHere _ _ _ hm]
  show String.mk (pyStrip ((mid ++ b) ++ ['\n'])) = String.mk mid
  rw [pyStrip_of_trimmed mid b hhead hlast hb hne]

theorem noFence_suffix {l : List Char} (h : hasFence l = false) :
    ∀ k, fenceMarker.isPrefixOf (l.drop k) = false := by
  induction l with
  | nil =>
    intro k
    rw [List.drop_nil]
    exact isPrefixOf_nil_false _ fenceMarker_ne_nil
  | cons c cs ih =>
    intro k
    obtain ⟨h1, h2⟩ := hasFence_cons_false h
    cases k with
    | zero => rw [List.drop_zero]; exact h1
    | succ k => rw [List.drop_succ_cons]; exact ih h2 k

theorem append_isPrefixOf_left {a b u : List Char} (h : (a ++ b).isPrefixOf u = true) :
    a.isPrefixOf u = true := by
  induction a generalizing u with
  | nil => exact isPrefixOf_nil_true u
  | cons c cs ih =>
    cases u with
    | nil =>
      rw [List.cons_append] at h
      exact Bool.noConfusion h
    | cons d ds =>
      rw [List.cons_append] at h
      rw [show (c :: (cs ++ b)).isPrefixOf (d :: ds) =
            (c == d && (cs ++ b).isPrefixOf ds) from rfl] at h
      rw [show (c :: cs).isPrefixOf (d :: ds) = (c == d && cs.isPrefixOf ds) from rfl]
      rw [Bool.and_eq_true] at h
      obtain ⟨hcd, hrest⟩ := h
      rw [hcd, ih hrest]
      rfl

theorem noFence_no_match {tag s : List Char} (h : hasFence s = false) (i : Nat) :
    ¬ MatchesAt tag s i := by
  intro hmm
  obtain ⟨ho, _⟩ := hmm
  unfold fenceOpen at ho
  have hf : fenceMarker.isPrefixOf (s.drop i) = true := append_isPrefixOf_left ho
  rw [noFence_suffix h i] at hf
  exact Bool.noConfusion hf

theorem extract_x_noFence (s tag : String) (h : hasFence s.toList = false) :
    extract_x s tag = s := by
  unfold extract_x
  rw [(fenceSearch_none_iff tag.toList s.toList).2 (fun i => noFence_no_match h i)]

/-- C3 (amended): for every text that parses as a JSON object with exactly
the three string-valued plan keys and that contains no three-backtick
marker, the extractor-then-parser pipeline — on the bare text and on the
fenced-wrapped text alike — recovers exactly the value of parsing the
bare text directly. -/
theorem pipeline_fence_roundtrip (s : String) (j : J) (x y z : List Char)
    (hp : parseJson s = some j) (_hshape : planShape j = some (x, y, z))
    (hnf : hasFence s.toList = false) :
    pipelineParse s = some j ∧ pipelineParse (wrapJson s) = some j := by
  constructor
  · unfold pipelineParse
    rw [extract_x_noFence s "json" hnf]
    exact hp
  · unfold pipelineParse
    rw [extract_wrapJson s hnf (parseJson_pyStrip_ne_nil hp)]
    exact parseJson_pyStrip hp

/-- Counterexample to C3 as stated: a valid three-key plan whose text_swap
value contains a fenced fragment.  Direct parsing recovers the three
strings, but the extractor excises the inner fragment, so the pipeline
returns the JSON number 1 and no plan at all. -/
theorem pipeline_fence_counterexample :
    (parseJson "\x7b\"text_swap\": \"a ```json 1``` b\", \"product_swap\": \"Y\", \"edits\": \"Z\"\x7d").bind planShape =
      some ("a ```json 1``` b".toList, "Y".toList, "Z".toList) ∧
    pipelineParse "\x7b\"text_swap\": \"a ```json 1``` b\", \"product_swap\": \"Y\", \"edits\": \"Z\"\x7d" =
      some (J.num ['1']) ∧
    (pipelineParse "\x7b\"text_swap\": \"a ```json 1``` b\", \"product_swap\": \"Y\", \"edits\": \"Z\"\x7d").bind planShape =
      none := by
  refine ⟨rfl, rfl, rfl⟩

/-- Witness for the amended C3 at spec scenario A's planner payload. -/
theorem pipeline_fence_roundtrip_witness :
    parseJson "\x7b\"text_swap\":\"X\",\"product_swap\":\"Y\",\"edits\":\"Z\"\x7d" =
      some (J.obj [(keyTextSwap, J.str ['X']), (keyProductSwap, J.str ['Y']),
        (keyEdits, J.str ['Z'])]) ∧
    planShape (J.obj [(keyTextSwap, J.str ['X']), (keyProductSwap, J.str ['Y']),
        (keyEdits, J.str ['Z'])]) = some (['X'], ['Y'], ['Z']) ∧
    hasFence ("\x7b\"text_swap\":\"X\",\"product_swap\":\"Y\",\"edits\":\"Z\"\x7d" : String).toList = false ∧
    pipelineParse "\x7b\"text_swap\":\"X\",\"product_swap\":\"Y\",\"edits\":\"Z\"\x7d" =
      some (J.obj [(keyTextSwap, J.str ['X']), (keyProductSwap, J.str ['Y']),
        (keyEdits, J.str ['Z'])]) ∧
    pipelineParse (wrapJson "\x7b\"text_swap\":\"X\",\"product_swap\":\"Y\",\"edits\":\"Z\"\x7d") =
      some (J.obj [(keyTextSwap, J.str ['X']), (keyProductSwap, J.str ['Y']),
        (keyEdits, J.str ['Z'])]) := by
  have hmain := pipeline_fence_roundtrip
    "\x7b\"text_swap\":\"X\",\"product_swap\":\"Y\",\"edits\":\"Z\"\x7d"
    (J.obj [(keyTextSwap, J.str ['X']), (keyProductSwap, J.str ['Y']), (keyEdits, J.str ['Z'])])
    ['X'] ['Y'] ['Z'] rfl rfl rfl
  exact ⟨rfl, rfl, rfl, hmain.1, hmain.2⟩

/-! ## Lemmas about usage aggregation and the flow orchestrator -/

theorem foldl_addUsage (l : List Usage) (a : Usage) :
    l.foldl addUsage a =
      ⟨a.input_tokens + (l.map (fun u => u.input_tokens)).sum,
       a.output_tokens + (l.map (fun u => u.output_tokens)).sum⟩ := by
  induction l generalizing a with
  | nil => simp [List.foldl_nil]
  | cons u l2 ih =>
    rw [List.foldl_cons, ih]
    simp [addUsage, Nat.add_assoc]

theorem sumUsage_eq (l : List Usage) :
    sumUsage l = ⟨(l.map (fun u => u.input_tokens)).sum,
      (l.map (fun u => u.output_tokens)).sum⟩ := by
  unfold sumUsage
  rw [foldl_addUsage]
  simp

theorem flowModel_ok_eq (t0 : String) (u0 : Usage)
    (image : Except Unit (Option (List Nat) × Usage)) :
    flowModel (Except.ok (t0, u0)) image =
      (match parseJson (extract_x t0 "json") with
       | none => (Except.error FlowErr.malformedPlan, [CallTag.textCall])
       | some job => flowAfterPlan u0 job image) := rfl

theorem planKeys3_none {j : J}
    (h : jGetKey j keyTextSwap = none ∨ jGetKey j keyProductSwap = none ∨
      jGetKey j keyEdits = none) : planKeys3 j = none := by
  unfold planKeys3
  cases h1 : jGetKey j keyTextSwap with
  | none => rfl
  | some t =>
    cases h2 : jGetKey j keyProductSwap with
    | none => rfl
    | some p =>
      cases h3 : jGetKey j keyEdits with
      | none => rfl
      | some e =>
        rcases h with hk | hk | hk
        · rw [h1] at hk; exact Option.noConfusion hk
        · rw [h2] at hk; exact Option.noConfusion hk
        · rw [h3] at hk; exact Option.noConfusion hk

/-- C5: on every successful run, the usage flow returns is the field-wise
sum of the two stage usage records, and usage aggregation is associative,
commutative, and invariant under reordering of the batch. -/
theorem flow_usage_accounting :
    (∀ (t0 : String) (u0 u1 : Usage) (b : Option (List Nat))
      (r : Option (List Nat) × Usage) (log : List CallTag),
      flowModel (Except.ok (t0, u0)) (Except.ok (b, u1)) = (Except.ok r, log) →
      r.2 = addUsage u0 u1) ∧
    (∀ a b c : Usage, addUsage (addUsage a b) c = addUsage a (addUsage b c)) ∧
    (∀ a b : Usage, addUsage a b = addUsage b a) ∧
    (∀ l1 l2 : List Usage, l1.Perm l2 → sumUsage l1 = sumUsage l2) := by
  refine ⟨?_, ?_, ?_, ?_⟩
  · intro t0 u0 u1 b r log h
    rw [flowModel_ok_eq] at h
    split at h
    · injection h with ha hb
      exact Except.noConfusion ha
    · rename_i job hjob
      unfold flowAfterPlan at h
      split at h
      · injection h with ha hb
        exact Except.noConfusion ha
      · injection h with ha hb
        injection ha with hc
        rw [← hc]
  · intro a b c
    simp [addUsage, Nat.add_assoc]
  · intro a b
    simp [addUsage, Nat.add_comm]
  · intro l1 l2 hperm
    rw [sumUsage_eq, sumUsage_eq]
    rw [(hperm.map (fun u => u.input_tokens)).sum_eq,
      (hperm.map (fun u => u.output_tokens)).sum_eq]

/-- Witness for C5: a concrete successful run and the spec's concrete
aggregation example. -/
theorem flow_usage_accounting_witness :
    ((some [7], (⟨4, 6⟩ : Usage)) : Option (List Nat) × Usage).2 = addUsage ⟨1, 2⟩ ⟨3, 4⟩ ∧
    sumUsage [⟨10, 5⟩, ⟨3, 7⟩] = ⟨13, 12⟩ ∧
    sumUsage [⟨10, 5⟩, ⟨3, 7⟩] = sumUsage [⟨3, 7⟩, ⟨10, 5⟩] := by
  refine ⟨?_, rfl, ?_⟩
  · exact flow_usage_accounting.1
      "\x7b\"text_swap\":\"X\",\"product_swap\":\"Y\",\"edits\":\"Z\"\x7d"
      ⟨1, 2⟩ ⟨3, 4⟩ (some [7]) (some [7], ⟨4, 6⟩)
      [CallTag.textCall, CallTag.imageCall] rfl
  · exact flow_usage_accounting.2.2.2 [⟨10, 5⟩, ⟨3, 7⟩] [⟨3, 7⟩, ⟨10, 5⟩] (by decide)

/-- C6: when the extracted planner output is not valid JSON, or parses to
an object missing one of the three plan keys, the run fails before the
image-generation call fires (only the text call is logged, for every
image oracle) and returns no output. -/
theorem flow_plan_failure_aborts (t0 : String) (u0 : Usage)
    (h : parseJson (extract_x t0 "json") = none ∨
      ∃ j, parseJson (extract_x t0 "json") = some j ∧
        (jGetKey j keyTextSwap = none ∨ jGetKey j keyProductSwap = none ∨
         jGetKey j keyEdits = none)) :
    ∀ image, ∃ e, flowModel (Except.ok (t0, u0)) image =
      (Except.error e, [CallTag.textCall]) := by
  intro image
  rw [flowModel_ok_eq]
  rcases h with hnone | ⟨j, hj, hkey⟩
  · rw [hnone]
    exact ⟨FlowErr.malformedPlan, rfl⟩
  · rw [hj]
    refine ⟨FlowErr.keyMissing, ?_⟩
    show flowAfterPlan u0 j image = (Except.error FlowErr.keyMissing, [CallTag.textCall])
    unfold flowAfterPlan
    rw [planKeys3_none hkey]

/-- Witness for C6 at a planner answer that is not JSON. -/
theorem flow_plan_failure_aborts_witness :
    ∃ e, flowModel (Except.ok ("not json", ⟨0, 0⟩)) (Except.ok (some [1], ⟨0, 0⟩)) =
      (Except.error e, [CallTag.textCall]) :=
  flow_plan_failure_aborts "not json" ⟨0, 0⟩ (Or.inl rfl) (Except.ok (some [1], ⟨0, 0⟩))

/-- C7: in every state the batch scheduler can reach, at most 3 runs are
past the admission gate simultaneously. -/
theorem admission_gate_bound (n : Nat) (s : BatchSchedState)
    (h : SchedReachable n s) : s.inFlight ≤ 3 := by
  induction h with
  | init => exact Nat.zero_le 3
  | step hr hs ih =>
    cases hs with
    | acquire hp hc => exact hc
    | release hf =>
      show BatchSchedState.inFlight _ - 1 ≤ 3
      omega

/-- Witness for C7 at the initial state of a batch of five runs. -/
theorem admission_gate_bound_witness :
    (⟨5, 0, 0⟩ : BatchSchedState).inFlight ≤ 3 :=
  admission_gate_bound 5 ⟨5, 0, 0⟩ SchedReachable.init

/-- C8: usage extraction accepts a usage_metadata-bearing response, falls
back to a usage-bearing one, defaults every missing or null count to
zero, never fails, and always yields non-negative counts. -/
theorem usage_extraction_tolerant (r : UsageShape) :
    (∀ mu, r.usage_metadata = some (some mu) →
      extractUsage r = ⟨mu.prompt_token_count.getD 0, mu.candidates_token_count.getD 0⟩) ∧
    (r.usage_metadata = some none → extractUsage r = ⟨0, 0⟩) ∧
    (∀ mu, r.usage_metadata = none → r.usage = some (some mu) →
      extractUsage r = ⟨mu.prompt_token_count.getD 0, mu.candidates_token_count.getD 0⟩) ∧
    (r.usage_metadata = none → r.usage = some none → extractUsage r = ⟨0, 0⟩) ∧
    (r.usage_metadata = none → r.usage = none → extractUsage r = ⟨0, 0⟩) ∧
    0 ≤ (extractUsage r).input_tokens ∧ 0 ≤ (extractUsage r).output_tokens := by
  refine ⟨?_, ?_, ?_, ?_, ?_, Nat.zero_le _, Nat.zero_le _⟩
  · intro mu h
    unfold extractUsage
    rw [h]
    rfl
  · intro h
    unfold extractUsage
    rw [h]
    rfl
  · intro mu h1 h2
    unfold extractUsage
    rw [h1, h2]
    rfl
  · intro h1 h2
    unfold extractUsage
    rw [h1, h2]
    rfl
  · intro h1 h2
    unfold extractUsage
    rw [h1, h2]

/-- Witness for C8 on a response with a usage_metadata attribute whose
candidate count is null. -/
theorem usage_extraction_tolerant_witness :
    extractUsage ⟨some (some ⟨some 5, none⟩), none⟩ = ⟨5, 0⟩ :=
  (usage_extraction_tolerant ⟨some (some ⟨some 5, none⟩), none⟩).1 ⟨some 5, none⟩ rfl

/-- C9 (amended): the batch orchestrator builds the unified render prompt
from exactly the plan's three fields, while the interactive variant fills
the first slot with the operator's campaign text and reads only
product_swap and edits from the plan — text_swap is not consumed there. -/
theorem render_prompt_slots (j : J) (x y z : List Char)
    (h : planShape j = some (x, y, z)) :
    flowRenderPrompt j = some ⟨String.mk x, String.mk y, String.mk z⟩ ∧
    ∀ c, streamlitRenderPrompt c j = some ⟨c, String.mk y, String.mk z⟩ := by
  cases j with
  | str s => exact Option.noConfusion h
  | num s => exact Option.noConfusion h
  | bool b => exact Option.noConfusion h
  | null => exact Option.noConfusion h
  | arr l => exact Option.noConfusion h
  | obj m =>
    simp only [planShape] at h
    split at h
    · split at h
      all_goals try exact Option.noConfusion h
      rename_i xs ys zs h1 h2 h3
      injection h with h4
      injection h4 with hx h5
      injection h5 with hy hz
      subst hx
      subst hy
      subst hz
      constructor
      · unfold flowRenderPrompt
        rw [show jGetKey (J.obj m) keyTextSwap = objFind m keyTextSwap from rfl,
          show jGetKey (J.obj m) keyProductSwap = objFind m keyProductSwap from rfl,
          show jGetKey (J.obj m) keyEdits = objFind m keyEdits from rfl,
          h1, h2, h3]
        rfl
      · intro c
        unfold streamlitRenderPrompt
        rw [show jGetKey (J.obj m) keyProductSwap = objFind m keyProductSwap from rfl,
          show jGetKey (J.obj m) keyEdits = objFind m keyEdits from rfl,
          h2, h3]
        rfl
    · exact Option.noConfusion h

/-- Counterexample to C9 as stated: with campaign text C and a plan whose
text_swap is T, the interactive variant's prompt carries C where the
batch pipeline's prompt carries the plan's T. -/
theorem render_prompt_slots_counterexample :
    flowRenderPrompt (J.obj [(keyTextSwap, J.str ['T']), (keyProductSwap, J.str ['Y']),
        (keyEdits, J.str ['Z'])]) = some ⟨"T", "Y", "Z"⟩ ∧
    streamlitRenderPrompt "C" (J.obj [(keyTextSwap, J.str ['T']), (keyProductSwap, J.str ['Y']),
        (keyEdits, J.str ['Z'])]) = some ⟨"C", "Y", "Z"⟩ ∧
    some (⟨"C", "Y", "Z"⟩ : UnifiedPrompt) ≠ some (⟨"T", "Y", "Z"⟩ : UnifiedPrompt) := by
  refine ⟨rfl, rfl, by decide⟩

/-- Witness for the amended C9 at a concrete plan. -/
theorem render_prompt_slots_witness :
    planShape (J.obj [(keyTextSwap, J.str ['T']), (keyProductSwap, J.str ['Y']),
        (keyEdits, J.str ['Z'])]) = some (['T'], ['Y'], ['Z']) ∧
    flowRenderPrompt (J.obj [(keyTextSwap, J.str ['T']), (keyProductSwap, J.str ['Y']),
        (keyEdits, J.str ['Z'])]) = some ⟨"T", "Y", "Z"⟩ ∧
    streamlitRenderPrompt "C" (J.obj [(keyTextSwap, J.str ['T']), (keyProductSwap, J.str ['Y']),
        (keyEdits, J.str ['Z'])]) = some ⟨"C", "Y", "Z"⟩ := by
  have hmain := render_prompt_slots
    (J.obj [(keyTextSwap, J.str ['T']), (keyProductSwap, J.str ['Y']), (keyEdits, J.str ['Z'])])
    ['T'] ['Y'] ['Z'] rfl
  exact ⟨rfl, hmain.1, hmain.2 "C"⟩

/-- C10: the plan-edit step of the interactive variant always re-stores a
plan holding exactly the three keys; a missing key never raises and is
replaced by the empty string; the shape is stable across reruns. -/
theorem edit_step_plan_shape (m : List (List Char × J)) :
    (editStepDefaults m).map (fun p => p.1) = [keyTextSwap, keyProductSwap, keyEdits] ∧
    (objFind m keyTextSwap = none →
      objFind (editStepDefaults m) keyTextSwap = some (J.str [])) ∧
    (objFind m keyProductSwap = none →
      objFind (editStepDefaults m) keyProductSwap = some (J.str [])) ∧
    (objFind m keyEdits = none →
      objFind (editStepDefaults m) keyEdits = some (J.str [])) ∧
    editStepDefaults (editStepDefaults m) = editStepDefaults m := by
  refine ⟨rfl, ?_, ?_, ?_, ?_⟩
  · intro h
    rw [show objFind (editStepDefaults m) keyTextSwap =
          some (dictGetD m keyTextSwap (J.str [])) from rfl]
    unfold dictGetD
    rw [h]
    rfl
  · intro h
    rw [show objFind (editStepDefaults m) keyProductSwap =
          some (dictGetD m keyProductSwap (J.str [])) from rfl]
    unfold dictGetD
    rw [h]
    rfl
  · intro h
    rw [show objFind (editStepDefaults m) keyEdits =
          some (dictGetD m keyEdits (J.str [])) from rfl]
    unfold dictGetD
    rw [h]
    rfl
  · rfl

/-- Witness for C10 at the empty parsed plan. -/
theorem edit_step_plan_shape_witness :
    objFind ([] : List (List Char × J)) keyTextSwap = none ∧
    objFind (editStepDefaults ([] : List (List Char × J))) keyTextSwap = some (J.str []) :=
  ⟨rfl, (edit_step_plan_shape []).2.1 rfl⟩

/-- C1 evidence: the batch runner discovers five recognized reference
files, yet because of the ref_image_paths[3:] slice it schedules only the
last two, writes two output files, and prints the aggregate count 2 — not
the five outputs and count 5 the spec demands. -/
theorem batch_slice_drops_first_three :
    (discoverRefs [⟨"a", ".png"⟩, ⟨"b", ".JPG"⟩, ⟨"c", ".jpeg"⟩, ⟨"d", ".webp"⟩,
        ⟨"e", ".gif"⟩]).length = 5 ∧
    batchOutputNames [⟨"a", ".png"⟩, ⟨"b", ".JPG"⟩, ⟨"c", ".jpeg"⟩, ⟨"d", ".webp"⟩,
        ⟨"e", ".gif"⟩] = ["d_new_1_gen.png", "e_new_1_gen.png"] ∧
    batchPrintedCount [⟨"a", ".png"⟩, ⟨"b", ".JPG"⟩, ⟨"c", ".jpeg"⟩, ⟨"d", ".webp"⟩,
        ⟨"e", ".gif"⟩] = 2 := by
  refine ⟨by decide, by decide, by decide⟩

/-- C2 evidence: on a response with no inline-image part the image call
returns (none, usage) without raising, and the save step then creates the
output file before failing at f.write — so the run fails late and an
empty output file is left behind, contrary to the claim. -/
theorem image_scan_silent_none :
    geminiImageResult ⟨[⟨none⟩, ⟨none⟩], ⟨none, none⟩⟩ = (none, ⟨0, 0⟩) ∧
    saveOutput (geminiImageResult ⟨[⟨none⟩, ⟨none⟩], ⟨none, none⟩⟩).1 =
      ⟨true, none, true⟩ := by
  exact ⟨rfl, rfl⟩
